import Mathlib

/-!
Verification of the header/cookie parsing and request-dispatch logic of
`main.py` (class `HeaderAnalyzer`).  Strings are modelled as `List Char`
(`Str`), Python dicts as insertion-ordered association lists with
overwrite-on-update, and the one statement of `parse_headers` that can raise
(`key, value = line.split(":", 1)`, which throws when the split yields fewer
than two parts) is modelled by `Option`: `none` is an uncaught exception.
-/

set_option autoImplicit false

/-- Python strings are modelled as lists of characters. -/
abbrev Str := List Char

/-- Whitespace predicate modelling Python `str.strip()` / `str.split()`
whitespace for the characters relevant here (ASCII whitespace plus the
line-break characters recognised by `str.splitlines`). -/
def pyIsSpace (c : Char) : Bool :=
  c = ' ' ∨ c = '\t' ∨ c = '\n' ∨ c = '\r' ∨ c = '\x0b' ∨ c = '\x0c' ∨
  c = '\x1c' ∨ c = '\x1d' ∨ c = '\x1e' ∨ c = '\x1f' ∨ c = '\x85' ∨
  c = '\u00A0' ∨ c = '\u2028' ∨ c = '\u2029'

/-- Python `str.strip()`: drop leading and trailing whitespace. -/
def pyStrip (s : Str) : Str :=
  ((s.dropWhile pyIsSpace).reverse.dropWhile pyIsSpace).reverse

/-- Line-break characters recognised by Python `str.splitlines`. -/
def isLineBreak (c : Char) : Bool :=
  c = '\n' ∨ c = '\r' ∨ c = '\x0b' ∨ c = '\x0c' ∨
  c = '\x1c' ∨ c = '\x1d' ∨ c = '\x1e' ∨ c = '\x85' ∨
  c = '\u2028' ∨ c = '\u2029'

/-- Accumulator-based worker for `pySplitlines`; `acc` holds the current line
reversed.  A final unterminated line is emitted only when non-empty, matching
Python (`"a\n".splitlines() == ["a"]`, `"".splitlines() == []`). -/
def pySplitlinesAux : Str → Str → List Str
  | acc, [] => if acc.isEmpty then [] else [acc.reverse]
  | acc, '\r' :: '\n' :: rest => acc.reverse :: pySplitlinesAux [] rest
  | acc, c :: rest =>
    if isLineBreak c then acc.reverse :: pySplitlinesAux [] rest
    else pySplitlinesAux (c :: acc) rest

/-- Python `str.splitlines()`. -/
def pySplitlines (s : Str) : List Str := pySplitlinesAux [] s

/-- Accumulator-based worker for `splitAll`. -/
def splitAllAux (sep : Char) : Str → Str → List Str
  | acc, [] => [acc.reverse]
  | acc, c :: rest =>
    if c = sep then acc.reverse :: splitAllAux sep [] rest
    else splitAllAux sep (c :: acc) rest

/-- Python `s.split(sep)` for a one-character separator: always returns at
least one (possibly empty) part, e.g. `"".split(";") == [""]` and
`"x=1;".split(";") == ["x=1", ""]`. -/
def splitAll (sep : Char) (s : Str) : List Str := splitAllAux sep [] s

/-- Python `s.split(sep, 1)` restricted to the case used by the code: returns
the parts before and after the first occurrence of `sep`, or `none` when `sep`
does not occur (in which case the two-variable unpacking in the source would
raise). -/
def splitOnFirst (sep : Char) : Str → Option (Str × Str)
  | [] => none
  | c :: rest =>
    if c = sep then some ([], rest)
    else (splitOnFirst sep rest).map (fun p => (c :: p.1, p.2))

/-- ASCII lowercasing of one character, as Python `str.lower()` acts on the
ASCII range (the only range exercised here). -/
def pyLowerChar (c : Char) : Char :=
  if 'A' ≤ c ∧ c ≤ 'Z' then Char.ofNat (c.toNat + 32) else c

/-- Python `str.lower()` (ASCII model). -/
def pyLower (s : Str) : Str := s.map pyLowerChar

/-- ASCII uppercasing of one character, as Python `str.upper()` acts on the
ASCII range. -/
def pyUpperChar (c : Char) : Char :=
  if 'a' ≤ c ∧ c ≤ 'z' then Char.ofNat (c.toNat - 32) else c

/-- Python `str.upper()` (ASCII model). -/
def pyUpper (s : Str) : Str := s.map pyUpperChar

/-- Value of a hexadecimal digit, `none` for non-hex characters. -/
def hexVal (c : Char) : Option Nat :=
  if '0' ≤ c ∧ c ≤ '9' then some (c.toNat - '0'.toNat)
  else if 'a' ≤ c ∧ c ≤ 'f' then some (c.toNat - 'a'.toNat + 10)
  else if 'A' ≤ c ∧ c ≤ 'F' then some (c.toNat - 'A'.toNat + 10)
  else none

/-- Python `urllib.parse.unquote`, modelled at character level: every valid
`%XX` escape (two hex digits) is replaced by the character with code `XX`;
malformed escapes are left untouched, exactly as `unquote` leaves them.
(The recombination of several consecutive escaped bytes into one multi-byte
UTF-8 code point is not modelled; no claim depends on it.) -/
def pyUnquoteAux : Nat → Str → Str
  | _, [] => []
  | 0, s => s
  | fuel + 1, '%' :: c1 :: c2 :: rest =>
    match hexVal c1, hexVal c2 with
    | some a, some b => Char.ofNat (16 * a + b) :: pyUnquoteAux fuel rest
    | _, _ => '%' :: pyUnquoteAux fuel (c1 :: c2 :: rest)
  | fuel + 1, '%' :: rest => '%' :: pyUnquoteAux fuel rest
  | fuel + 1, c :: rest => c :: pyUnquoteAux fuel rest

/-- Entry point of the decoder: every step of `pyUnquoteAux` consumes at
least one character and one unit of fuel, so fuel equal to the length of the
string is never exhausted. -/
def pyUnquote (s : Str) : Str := pyUnquoteAux s.length s

/-- Values stored in the `headers` and `cookies` dicts of the parse result:
either a plain Python string, or a dict with a `"raw"` entry and an optional
`"decoded"` entry. -/
inductive PyVal where
  | str : Str → PyVal
  | dict : Str → Option Str → PyVal
  deriving DecidableEq, Repr

/-- Raw string carried by a stored value: the string itself for a plain
value, the `"raw"` field for a dict (this is what `send_request` unwraps with
`value["raw"] if isinstance(value, dict) else value`). -/
def unwrapRaw : PyVal → Str
  | .str s => s
  | .dict r _ => r

/-- Whether a stored value carries a `"decoded"` field. -/
def hasDecoded : PyVal → Bool
  | .dict _ (some _) => true
  | _ => false

/-- Python dict insertion `m[k] = v`: overwrite in place if the key is
present, else append at the end (insertion order is preserved). -/
def mapInsert : List (Str × PyVal) → Str → PyVal → List (Str × PyVal)
  | [], k, v => [(k, v)]
  | p :: m, k, v => if p.1 = k then (p.1, v) :: m else p :: mapInsert m k v

/-- Python dict lookup `m.get(k)`. -/
def mapLookup : List (Str × PyVal) → Str → Option PyVal
  | [], _ => none
  | p :: m, k => if p.1 = k then some p.2 else mapLookup m k

/-- Number of entries of the association list carrying key `k` (1 or 0 for an
actual dict, whose keys are unique). -/
def countKey : List (Str × PyVal) → Str → Nat
  | [], _ => 0
  | p :: m, k => (if p.1 = k then 1 else 0) + countKey m k

/-- Result of `HeaderAnalyzer.parse_headers`: the dict
`{"request_line": ..., "headers": {...}, "cookies": {...}}`. -/
structure Parsed where
  request_line : Str
  headers : List (Str × PyVal)
  cookies : List (Str × PyVal)
  deriving DecidableEq, Repr

/-- Lowercased key `"cookie"` the parser compares header names against. -/
def cookieKey : Str := "cookie".data

/-- Lines 74-87 of `main.py`, the body of the per-cookie loop without the
dict store: the `(name, value)` pair computed for one cookie item.  An item
containing `=` is split on the first `=`; both sides are trimmed, the value is
percent-decoded when it contains `%`, and a `decoded` field is kept only when
decoding changed it.  An item without `=` becomes a flag cookie with raw value
`""`.  `none` models the (unreachable) failed unpacking of `cookie.split("=", 1)`. -/
def cookieItemKV (cookie : Str) : Option (Str × PyVal) :=
  if cookie.contains '=' then
    (splitOnFirst '=' cookie).map (fun p =>
      let name := pyStrip p.1
      let val := pyStrip p.2
      let decoded_val := if val.contains '%' then pyUnquote val else val
      if decoded_val ≠ val then (name, .dict val (some decoded_val))
      else (name, .dict val none))
  else
    some (pyStrip cookie, .dict [] none)

/-- Store one cookie item into the cookies dict (one iteration of the loop at
lines 72-87 of `main.py`). -/
def processCookieItem (m : List (Str × PyVal)) (cookie : Str) :
    Option (List (Str × PyVal)) :=
  (cookieItemKV cookie).map (fun p => mapInsert m p.1 p.2)

/-- Lines 71-87 of `main.py`: split the cookie header value on `;` and store
every item. -/
def processCookies (cs : List (Str × PyVal)) (value : Str) :
    Option (List (Str × PyVal)) :=
  (splitAll ';' value).foldlM processCookieItem cs

/-- Line 90-94 of `main.py`: the value stored for a generic (non-cookie)
header whose trimmed value is `value`. -/
def headerValue (value : Str) : PyVal :=
  let decoded_value := if value.contains '%' then pyUnquote value else value
  if decoded_value ≠ value then .dict value (some decoded_value)
  else .str value

/-- One iteration of the header loop (lines 58-94 of `main.py`): skip the
line if it has no colon, otherwise split on the first colon, trim and
lowercase the key, trim the value, and route to cookie or generic-header
processing.  `none` models a raise of the two-variable unpacking of
`line.split(":", 1)` (unreachable thanks to the colon guard). -/
def processLine (st : Parsed) (line : Str) : Option Parsed :=
  if ¬ line.contains ':' then some st
  else
    match splitOnFirst ':' line with
    | none => none
    | some kv =>
      let key := pyLower (pyStrip kv.1)
      let value := pyStrip kv.2
      if key = cookieKey then
        (processCookies st.cookies value).map (fun cs => { st with cookies := cs })
      else
        some { st with headers := mapInsert st.headers key (headerValue value) }

/-- `HeaderAnalyzer.parse_headers` (lines 34-96 of `main.py`): strip the
whole block, split into lines, set `request_line` from a colon-free first
line, then run the header loop over all lines.  `none` models an uncaught
exception. -/
def parse_headers (text : Str) : Option Parsed :=
  let lines := pySplitlines (pyStrip text)
  let rl : Str :=
    match lines with
    | [] => []
    | l0 :: _ => if ¬ l0.contains ':' then pyStrip l0 else []
  lines.foldlM processLine { request_line := rl, headers := [], cookies := [] }

/-- Accumulator-based worker for `pySplitWs`. -/
def pySplitWsAux : Str → Str → List Str
  | acc, [] => if acc.isEmpty then [] else [acc.reverse]
  | acc, c :: rest =>
    if pyIsSpace c then
      if acc.isEmpty then pySplitWsAux [] rest
      else acc.reverse :: pySplitWsAux [] rest
    else pySplitWsAux (c :: acc) rest

/-- Python `s.split()` with no arguments: split on runs of whitespace,
producing no empty parts. -/
def pySplitWs (s : Str) : List Str := pySplitWsAux [] s

/-- Error raised by `send_request` when the `host` header is absent or
empty (a `ValueError` in the source; the design document names it
`MissingHostError`). -/
inductive SendError where
  | missingHost
  deriving DecidableEq, Repr

/-- Argument bundle handed to the HTTP transport
(`requests.request(method, url, headers=..., cookies=...)` at line 166 of
`main.py`): headers and cookies are flattened to plain string maps by
unwrapping tagged values to their `"raw"` field. -/
structure Request where
  method : Str
  url : Str
  headers : List (Str × Str)
  cookies : List (Str × Str)
  deriving DecidableEq, Repr

/-- Lines 121-127 of `main.py`: the `host` string extracted from the parsed
headers, the empty string when the `"host"` key is absent. -/
def getHost (parsed : Parsed) : Str :=
  match mapLookup parsed.headers "host".data with
  | some v => unwrapRaw v
  | none => []

/-- Lines 120-157 of `main.py`: everything `send_request` does before the
network call — extract the host (raising `MissingHostError` when it is
empty), derive method and path from the request line (defaulting to `GET /`),
build the URL by concatenation, and flatten headers and cookies to their raw
strings. -/
def buildRequest (parsed : Parsed) (scheme : Str) : Except SendError Request :=
  let host := getHost parsed
  if host = [] then .error .missingHost
  else
    let parts := pySplitWs parsed.request_line
    let mp : Str × Str :=
      match parts with
      | m :: p :: _ => (pyUpper m, p)
      | _ => ("GET".data, "/".data)
    .ok
      { method := mp.1
        url := scheme ++ "://".data ++ host ++ mp.2
        headers := parsed.headers.map (fun p => (p.1, unwrapRaw p.2))
        cookies := parsed.cookies.map (fun p => (p.1, unwrapRaw p.2)) }

/-- `HeaderAnalyzer.send_request` (lines 107-167 of `main.py`) on an
already-parsed result, instrumented with the injected HTTP transport: the
returned boolean records whether the transport was invoked.  When
`buildRequest` fails, the error propagates and the transport is never
called. -/
def send_request (transport : Request → Nat) (parsed : Parsed) (scheme : Str) :
    Except SendError Nat × Bool :=
  match buildRequest parsed scheme with
  | .error e => (.error e, false)
  | .ok req => (.ok (transport req), true)

/-! ### Total restatements of the parser, used as proof devices

`parse_headers` is `Option`-valued only to model the potentially raising
unpacking statements.  The `...T` functions below are the same computations
with the (provably unreachable) `none` branches replaced by "skip", and are
proved to agree with the faithful versions. -/

/-- Total version of `cookieItemKV` (the `none` branch is unreachable because
it is guarded by `'=' in cookie`). -/
def cookieItemKVT (cookie : Str) : Str × PyVal :=
  match cookieItemKV cookie with
  | some p => p
  | none => ([], .dict [] none)

/-- Total version of `processCookies`. -/
def processCookiesT (cs : List (Str × PyVal)) (value : Str) :
    List (Str × PyVal) :=
  (splitAll ';' value).foldl
    (fun m item => mapInsert m (cookieItemKVT item).1 (cookieItemKVT item).2) cs

/-- The trimmed, lowercased key and trimmed value of a line, `none` for a
line without a colon (which the header loop skips). -/
def lineKeyVal (line : Str) : Option (Str × Str) :=
  if ¬ line.contains ':' then none
  else (splitOnFirst ':' line).map (fun kv => (pyLower (pyStrip kv.1), pyStrip kv.2))

/-- Total version of `processLine`. -/
def processLineT (st : Parsed) (line : Str) : Parsed :=
  match lineKeyVal line with
  | none => st
  | some kv =>
    if kv.1 = cookieKey then { st with cookies := processCookiesT st.cookies kv.2 }
    else { st with headers := mapInsert st.headers kv.1 (headerValue kv.2) }

/-- Total version of the header loop. -/
def processLinesT (lines : List Str) (st : Parsed) : Parsed :=
  lines.foldl processLineT st

/-- Total version of `parse_headers`. -/
def parse_headersT (text : Str) : Parsed :=
  let lines := pySplitlines (pyStrip text)
  let rl : Str :=
    match lines with
    | [] => []
    | l0 :: _ => if ¬ l0.contains ':' then pyStrip l0 else []
  processLinesT lines { request_line := rl, headers := [], cookies := [] }

/-! ### The write sequences of a parse

Each run of the header loop performs a sequence of dict stores; the final
`headers` and `cookies` dicts are exactly those sequences replayed over the
empty dict.  The following functions extract the sequences. -/

/-- The `(key, value)` pair a line stores into `headers`, if any: `none` for
colon-free lines and for cookie lines. -/
def headerWrite (line : Str) : Option (Str × PyVal) :=
  match lineKeyVal line with
  | none => none
  | some kv => if kv.1 = cookieKey then none else some (kv.1, headerValue kv.2)

/-- The sequence of `(name, value)` pairs a line stores into `cookies`:
empty unless the line is a cookie line, in which case there is one store per
`;`-separated item. -/
def cookieWritesOfLine (line : Str) : List (Str × PyVal) :=
  match lineKeyVal line with
  | none => []
  | some kv =>
    if kv.1 = cookieKey then (splitAll ';' kv.2).map cookieItemKVT else []

/-- The header stores of a single line as a (zero- or one-element) list. -/
def headerWritesOfLine (line : Str) : List (Str × PyVal) :=
  match headerWrite line with
  | some w => [w]
  | none => []

/-- All header stores performed over a list of lines, in order. -/
def headerWrites : List Str → List (Str × PyVal)
  | [] => []
  | l :: ls => headerWritesOfLine l ++ headerWrites ls

/-- Consistency predicate of the raw/decoded representation: a stored value
carries a `decoded` field exactly when percent-decoding its raw string
changes it. -/
def decodedConsistent (v : PyVal) : Prop :=
  hasDecoded v = true ↔ ¬ pyUnquote (unwrapRaw v) = unwrapRaw v

/-- All cookie stores performed over a list of lines, in order. -/
def allCookieWrites : List Str → List (Str × PyVal)
  | [] => []
  | l :: ls => cookieWritesOfLine l ++ allCookieWrites ls

/-- Replay a sequence of dict stores over a dict. -/
def insertList : List (Str × PyVal) → List (Str × PyVal) → List (Str × PyVal)
  | m, [] => m
  | m, w :: ws => insertList (mapInsert m w.1 w.2) ws

/-- The value of the last store with key `k` in a write sequence, if any
(the value a dict built by replaying the sequence holds at `k`: last write
wins). -/
def lastWrite : List (Str × PyVal) → Str → Option PyVal
  | [], _ => none
  | w :: ws, k =>
    match lastWrite ws k with
    | some v => some v
    | none => if w.1 = k then some w.2 else none

/-- Lines of the header block, after whole-block trimming, as `parse_headers`
computes them. -/
def linesOf (text : Str) : List Str := pySplitlines (pyStrip text)


/-! ### Concrete header blocks used to exercise the theorems -/

/-- Header block consisting of a lone request line. -/
def exRequestOnly : Str := "a".data

/-- Header block with a percent-encoded header value (`%7C` decodes to `|`). -/
def exPercentHeader : Str := "a: %7C".data

/-- Header block with a duplicated header name and a duplicated cookie name. -/
def exDupNames : Str := "a: 1\na: 2\ncookie: x=1; x=2".data

/-- Header block whose first line contains a colon. -/
def exColonFirst : Str := "Host: x".data

/-- Header block whose cookie value ends in a semicolon. -/
def exTrailingSemi : Str := "cookie: x=1;".data

/-- Header block with a request line and no `host` header. -/
def exGetOnly : Str := "GET /".data

/-- Header block consisting of one cookie header line. -/
def exCookieLine : Str := "cookie: a=1".data

/-- Header block whose cookie header value trims to the empty string. -/
def exEmptyCookie : Str := "cookie: ".data

/-- Header block where an empty cookie value is followed by a second cookie
line whose item `=x` writes the empty cookie name again. -/
def exOverwrittenFlag : Str := "cookie: \ncookie: =x".data

/-- Header block with one `name=value` cookie whose value has no `%`. -/
def exEqCookie : Str := "cookie: x=1".data

/-- Parse result of `exDupNames`: both duplicate names keep the last value. -/
def parsedDupNames : Parsed :=
  ⟨[], [(("a").data, PyVal.str ("2").data)], [(("x").data, PyVal.dict ("2").data none)]⟩

/-- Parse result of `exColonFirst`: no request line, `host` parsed as header. -/
def parsedColonFirst : Parsed := ⟨[], [(("host").data, PyVal.str ("x").data)], []⟩

/-- Parse result of `exGetOnly`: a request line and nothing else. -/
def parsedGetOnly : Parsed := ⟨("GET /").data, [], []⟩

/-- Parse result of `exCookieLine`: one cookie, no headers. -/
def parsedCookieLine : Parsed := ⟨[], [], [(("a").data, PyVal.dict ("1").data none)]⟩

/-- Parse result of `exEmptyCookie`: a single flag cookie with empty name. -/
def parsedEmptyCookie : Parsed := ⟨[], [], [([], PyVal.dict [] none)]⟩

/-! ### Basic lemmas about the string operations -/

theorem contains_nil_false (c : Char) : ([] : Str).contains c = false := rfl

theorem contains_cons_tail {c sep : Char} {rest : Str} (hne : c ≠ sep)
    (h : (c :: rest).contains sep = true) : rest.contains sep = true := by
  simp only [List.contains_cons, Bool.or_eq_true, beq_iff_eq] at h
  rcases h with h | h
  · exact absurd h.symm hne
  · exact h

theorem splitOnFirst_isSome (sep : Char) (l : Str)
    (h : l.contains sep = true) : ∃ p, splitOnFirst sep l = some p := by
  induction l with
  | nil => simp [List.contains] at h
  | cons c rest ih =>
    by_cases hc : c = sep
    · exact ⟨([], rest), by simp [splitOnFirst, hc]⟩
    · obtain ⟨p, hp⟩ := ih (contains_cons_tail hc h)
      exact ⟨(c :: p.1, p.2), by simp [splitOnFirst, hc, hp]⟩

theorem pyUnquote_nil : pyUnquote [] = [] := rfl

theorem pyUnquoteAux_cons_ne (fuel : Nat) (c : Char) (rest : Str) (h : c ≠ '%') :
    pyUnquoteAux (fuel + 1) (c :: rest) = c :: pyUnquoteAux fuel rest := by
  rw [pyUnquoteAux.eq_def]
  split <;> simp_all

theorem pyUnquote_cons_ne (c : Char) (rest : Str) (h : c ≠ '%') :
    pyUnquote (c :: rest) = c :: pyUnquote rest := by
  unfold pyUnquote
  rw [List.length_cons, pyUnquoteAux_cons_ne _ _ _ h]

theorem pyUnquote_no_percent (l : Str) (h : l.contains '%' = false) :
    pyUnquote l = l := by
  induction l with
  | nil => exact pyUnquote_nil
  | cons c rest ih =>
    have hc : c ≠ '%' := by
      intro hc
      subst hc
      simp [List.contains_cons] at h
    have h' : rest.contains '%' = false := by
      simp only [List.contains_cons, Bool.or_eq_false_iff] at h
      exact h.2
    rw [pyUnquote_cons_ne c rest hc, ih h']

/-! ### Lemmas about the dict model -/

theorem mapLookup_mapInsert_self (m : List (Str × PyVal)) (k : Str) (v : PyVal) :
    mapLookup (mapInsert m k v) k = some v := by
  induction m with
  | nil => simp [mapInsert, mapLookup]
  | cons p m ih =>
    by_cases h : p.1 = k
    · simp [mapInsert, mapLookup, h]
    · simp [mapInsert, mapLookup, h, ih]

theorem mapLookup_mapInsert_ne (m : List (Str × PyVal)) (k' k : Str) (v : PyVal)
    (h : k' ≠ k) : mapLookup (mapInsert m k' v) k = mapLookup m k := by
  induction m with
  | nil => simp [mapInsert, mapLookup, h]
  | cons p m ih =>
    by_cases hp : p.1 = k'
    · simp only [mapInsert, if_pos hp, mapLookup]
      rw [if_neg (hp ▸ h), if_neg (hp ▸ h)]
    · simp only [mapInsert, if_neg hp, mapLookup]
      by_cases hpk : p.1 = k
      · rw [if_pos hpk, if_pos hpk]
      · rw [if_neg hpk, if_neg hpk, ih]

theorem mapLookup_none_iff_countKey_zero (m : List (Str × PyVal)) (k : Str) :
    mapLookup m k = none ↔ countKey m k = 0 := by
  induction m with
  | nil => simp [mapLookup, countKey]
  | cons p m ih =>
    by_cases h : p.1 = k
    · simp [mapLookup, countKey, h]
    · simp [mapLookup, countKey, h, ih]

theorem one_le_countKey_of_mapLookup_some {m : List (Str × PyVal)} {k : Str}
    {v : PyVal} (h : mapLookup m k = some v) : 1 ≤ countKey m k := by
  by_contra hc
  have h0 : countKey m k = 0 := by omega
  rw [← mapLookup_none_iff_countKey_zero] at h0
  rw [h] at h0
  exact Option.noConfusion h0

theorem countKey_mapInsert (m : List (Str × PyVal)) (k j : Str) (v : PyVal) :
    countKey (mapInsert m k v) j =
      countKey m j + (if k = j ∧ mapLookup m k = none then 1 else 0) := by
  induction m with
  | nil => by_cases h : k = j <;> simp [mapInsert, countKey, mapLookup, h]
  | cons p m ih =>
    by_cases hp : p.1 = k
    · simp [mapInsert, if_pos hp, countKey, mapLookup, hp]
    · simp only [mapInsert, if_neg hp, countKey, ih, mapLookup]
      rw [Nat.add_assoc]

theorem countKey_le_one_mapInsert {m : List (Str × PyVal)} (k : Str) (v : PyVal)
    (h : ∀ j, countKey m j ≤ 1) : ∀ j, countKey (mapInsert m k v) j ≤ 1 := by
  intro j
  rw [countKey_mapInsert]
  by_cases hc : k = j ∧ mapLookup m k = none
  · rw [if_pos hc]
    have h0 : countKey m j = 0 := by
      rw [← mapLookup_none_iff_countKey_zero, ← hc.1]
      exact hc.2
    omega
  · rw [if_neg hc]
    have := h j
    omega

theorem insertList_append (m : List (Str × PyVal)) (ws₁ ws₂ : List (Str × PyVal)) :
    insertList m (ws₁ ++ ws₂) = insertList (insertList m ws₁) ws₂ := by
  induction ws₁ generalizing m with
  | nil => simp [insertList]
  | cons w ws ih => simp [insertList, ih]

theorem mapLookup_insertList (ws : List (Str × PyVal)) (m : List (Str × PyVal))
    (k : Str) :
    mapLookup (insertList m ws) k =
      (match lastWrite ws k with
       | some v => some v
       | none => mapLookup m k) := by
  induction ws generalizing m with
  | nil => simp [insertList, lastWrite]
  | cons w ws ih =>
    rw [show insertList m (w :: ws) = insertList (mapInsert m w.1 w.2) ws from rfl]
    rw [ih]
    cases hlw : lastWrite ws k with
    | some v => simp [lastWrite, hlw]
    | none =>
      simp only [lastWrite, hlw]
      by_cases hwk : w.1 = k
      · subst hwk
        simp [mapLookup_mapInsert_self]
      · simp [hwk, mapLookup_mapInsert_ne m w.1 k w.2 hwk]

theorem countKey_le_one_insertList {m : List (Str × PyVal)}
    (ws : List (Str × PyVal)) (h : ∀ j, countKey m j ≤ 1) :
    ∀ j, countKey (insertList m ws) j ≤ 1 := by
  induction ws generalizing m with
  | nil => exact h
  | cons w ws ih =>
    exact ih (countKey_le_one_mapInsert w.1 w.2 h)

theorem lastWrite_none_iff (ws : List (Str × PyVal)) (k : Str) :
    lastWrite ws k = none ↔ countKey ws k = 0 := by
  induction ws with
  | nil => simp [lastWrite, countKey]
  | cons w ws ih =>
    cases hlw : lastWrite ws k with
    | some v =>
      simp only [lastWrite, hlw, countKey]
      constructor
      · intro hc
        exact Option.noConfusion hc
      · intro hc
        have : countKey ws k = 0 := by omega
        rw [← ih] at this
        rw [hlw] at this
        exact Option.noConfusion this
    | none =>
      simp only [lastWrite, hlw, countKey]
      have hws : countKey ws k = 0 := ih.mp hlw
      by_cases hwk : w.1 = k
      · simp [hwk, hws]
      · simp [hwk, hws]

theorem lastWrite_isSome_of_countKey_pos {ws : List (Str × PyVal)} {k : Str}
    (h : 1 ≤ countKey ws k) : ∃ v, lastWrite ws k = some v := by
  cases hlw : lastWrite ws k with
  | some v => exact ⟨v, rfl⟩
  | none =>
    rw [lastWrite_none_iff] at hlw
    omega

theorem lastWrite_mem {ws : List (Str × PyVal)} {k : Str} {v : PyVal}
    (h : lastWrite ws k = some v) : (k, v) ∈ ws := by
  induction ws with
  | nil => simp [lastWrite] at h
  | cons w ws ih =>
    simp only [lastWrite] at h
    cases hlw : lastWrite ws k with
    | some v' =>
      rw [hlw] at h
      cases h
      exact List.mem_cons_of_mem w (ih hlw)
    | none =>
      rw [hlw] at h
      by_cases hwk : w.1 = k
      · rw [if_pos hwk] at h
        obtain ⟨w1, w2⟩ := w
        simp only at hwk h
        subst hwk
        cases h
        exact List.mem_cons_self _ _
      · rw [if_neg hwk] at h
        exact Option.noConfusion h

theorem one_le_countKey_of_mem {ws : List (Str × PyVal)} {k : Str} {v : PyVal}
    (h : (k, v) ∈ ws) : 1 ≤ countKey ws k := by
  induction ws with
  | nil => simp at h
  | cons w ws ih =>
    rcases List.mem_cons.mp h with h | h
    · simp [countKey, ← h]
    · have := ih h
      simp only [countKey]
      omega

/-! ### The faithful parser never hits its exception branches -/

theorem cookieItemKV_isSome (cookie : Str) : ∃ p, cookieItemKV cookie = some p := by
  rw [← Option.isSome_iff_exists]
  by_cases h : cookie.contains '=' = true
  · obtain ⟨p, hp⟩ := splitOnFirst_isSome '=' cookie h
    have hm : '=' ∈ cookie := by simpa using h
    simp [cookieItemKV, hm, hp]
  · have hm : '=' ∉ cookie := by simpa using h
    simp [cookieItemKV, hm]

theorem cookieItemKV_eq (cookie : Str) :
    cookieItemKV cookie = some (cookieItemKVT cookie) := by
  obtain ⟨p, hp⟩ := cookieItemKV_isSome cookie
  rw [hp]
  unfold cookieItemKVT
  rw [hp]

theorem foldlM_cookie_items (items : List Str) : ∀ cs : List (Str × PyVal),
    items.foldlM processCookieItem cs =
      some (items.foldl
        (fun m item => mapInsert m (cookieItemKVT item).1 (cookieItemKVT item).2) cs) := by
  induction items with
  | nil =>
    intro cs
    rfl
  | cons i is ih =>
    intro cs
    rw [List.foldlM_cons]
    have hi : processCookieItem cs i =
        some (mapInsert cs (cookieItemKVT i).1 (cookieItemKVT i).2) := by
      unfold processCookieItem
      rw [cookieItemKV_eq]
      rfl
    rw [hi, List.foldl_cons]
    exact ih _

theorem processCookies_eq (cs : List (Str × PyVal)) (value : Str) :
    processCookies cs value = some (processCookiesT cs value) :=
  foldlM_cookie_items (splitAll ';' value) cs

theorem processLine_eq (st : Parsed) (line : Str) :
    processLine st line = some (processLineT st line) := by
  by_cases h : line.contains ':' = true
  · obtain ⟨kv, hkv⟩ := splitOnFirst_isSome ':' line h
    have hm : ':' ∈ line := by simpa using h
    by_cases hc : pyLower (pyStrip kv.1) = cookieKey
    · simp [processLine, processLineT, lineKeyVal, hm, hkv, hc, processCookies_eq]
    · simp [processLine, processLineT, lineKeyVal, hm, hkv, hc]
  · have hm : ':' ∉ line := by simpa using h
    simp [processLine, processLineT, lineKeyVal, hm]

theorem foldlM_processLine (ls : List Str) : ∀ st : Parsed,
    ls.foldlM processLine st = some (processLinesT ls st) := by
  induction ls with
  | nil =>
    intro st
    rfl
  | cons l ls ih =>
    intro st
    rw [List.foldlM_cons, processLine_eq]
    show ls.foldlM processLine (processLineT st l) = _
    rw [ih]
    rfl

theorem parse_headers_eq (text : Str) :
    parse_headers text = some (parse_headersT text) := by
  unfold parse_headers parse_headersT processLinesT
  exact foldlM_processLine _ _

/-! ### Decomposition of a parse into its sequence of dict stores -/

theorem processCookiesT_insertList (items : List Str) : ∀ cs : List (Str × PyVal),
    items.foldl
      (fun m item => mapInsert m (cookieItemKVT item).1 (cookieItemKVT item).2) cs =
    insertList cs (items.map cookieItemKVT) := by
  induction items with
  | nil => intro cs; rfl
  | cons i is ih =>
    intro cs
    rw [List.foldl_cons, List.map_cons]
    exact ih _

theorem processCookiesT_eq (cs : List (Str × PyVal)) (value : Str) :
    processCookiesT cs value = insertList cs ((splitAll ';' value).map cookieItemKVT) :=
  processCookiesT_insertList (splitAll ';' value) cs

theorem processLineT_request_line (st : Parsed) (line : Str) :
    (processLineT st line).request_line = st.request_line := by
  unfold processLineT
  cases h : lineKeyVal line with
  | none => rfl
  | some kv =>
    by_cases hc : kv.1 = cookieKey
    · simp [hc]
    · simp [hc]

theorem processLineT_headers (st : Parsed) (line : Str) :
    (processLineT st line).headers = insertList st.headers (headerWritesOfLine line) := by
  unfold processLineT headerWritesOfLine headerWrite
  cases h : lineKeyVal line with
  | none => rfl
  | some kv =>
    by_cases hc : kv.1 = cookieKey
    · simp [hc, insertList]
    · simp [hc, insertList]

theorem processLineT_cookies (st : Parsed) (line : Str) :
    (processLineT st line).cookies = insertList st.cookies (cookieWritesOfLine line) := by
  unfold processLineT cookieWritesOfLine
  cases h : lineKeyVal line with
  | none => rfl
  | some kv =>
    by_cases hc : kv.1 = cookieKey
    · simp [hc, processCookiesT_eq]
    · simp [hc, insertList]

theorem processLinesT_decomp (ls : List Str) : ∀ st : Parsed,
    (processLinesT ls st).request_line = st.request_line ∧
    (processLinesT ls st).headers = insertList st.headers (headerWrites ls) ∧
    (processLinesT ls st).cookies = insertList st.cookies (allCookieWrites ls) := by
  induction ls with
  | nil =>
    intro st
    exact ⟨rfl, rfl, rfl⟩
  | cons l ls ih =>
    intro st
    have hstep : processLinesT (l :: ls) st = processLinesT ls (processLineT st l) := rfl
    obtain ⟨ihr, ihh, ihc⟩ := ih (processLineT st l)
    refine ⟨?_, ?_, ?_⟩
    · rw [hstep, ihr, processLineT_request_line]
    · rw [hstep, ihh, processLineT_headers]
      rw [show headerWrites (l :: ls) = headerWritesOfLine l ++ headerWrites ls from rfl]
      rw [insertList_append]
    · rw [hstep, ihc, processLineT_cookies]
      rw [show allCookieWrites (l :: ls) = cookieWritesOfLine l ++ allCookieWrites ls from rfl]
      rw [insertList_append]

theorem parse_headersT_headers (text : Str) :
    (parse_headersT text).headers = insertList [] (headerWrites (linesOf text)) :=
  (processLinesT_decomp (linesOf text) _).2.1

theorem parse_headersT_cookies (text : Str) :
    (parse_headersT text).cookies = insertList [] (allCookieWrites (linesOf text)) :=
  (processLinesT_decomp (linesOf text) _).2.2

theorem parse_headersT_request_line (text : Str) :
    (parse_headersT text).request_line =
      (match linesOf text with
       | [] => ([] : Str)
       | l0 :: _ => if ¬ l0.contains ':' then pyStrip l0 else []) :=
  (processLinesT_decomp (linesOf text) _).1

/-! ### Every stored value is raw/decoded-consistent -/

theorem headerValue_decodedConsistent (value : Str) :
    decodedConsistent (headerValue value) := by
  unfold decodedConsistent headerValue
  by_cases hp : value.contains '%' = true
  · have hm : '%' ∈ value := by simpa using hp
    by_cases hd : pyUnquote value = value
    · simp [hm, hd, hasDecoded, unwrapRaw]
    · simp [hm, hd, hasDecoded, unwrapRaw]
  · have hnc : value.contains '%' = false := by
      simpa using hp
    have hm : '%' ∉ value := by simpa using hnc
    have hd : pyUnquote value = value := pyUnquote_no_percent value hnc
    simp [hm, hd, hasDecoded, unwrapRaw]

theorem cookieValue_decodedConsistent (item : Str) :
    decodedConsistent (cookieItemKVT item).2 := by
  by_cases h : item.contains '=' = true
  · obtain ⟨p, hsp⟩ := splitOnFirst_isSome '=' item h
    have hm : '=' ∈ item := by simpa using h
    by_cases hp : (pyStrip p.2).contains '%' = true
    · have hmp : '%' ∈ pyStrip p.2 := by simpa using hp
      by_cases hd : pyUnquote (pyStrip p.2) = pyStrip p.2
      · have hv : cookieItemKVT item = (pyStrip p.1, PyVal.dict (pyStrip p.2) none) := by
          simp [cookieItemKVT, cookieItemKV, hm, hsp, hmp, hd]
        rw [hv]
        simp [decodedConsistent, hasDecoded, unwrapRaw, hd]
      · have hv : cookieItemKVT item =
            (pyStrip p.1, PyVal.dict (pyStrip p.2) (some (pyUnquote (pyStrip p.2)))) := by
          simp [cookieItemKVT, cookieItemKV, hm, hsp, hmp, hd]
        rw [hv]
        simp [decodedConsistent, hasDecoded, unwrapRaw, hd]
    · have hnc : (pyStrip p.2).contains '%' = false := by simpa using hp
      have hmp : '%' ∉ pyStrip p.2 := by simpa using hnc
      have hd : pyUnquote (pyStrip p.2) = pyStrip p.2 := pyUnquote_no_percent _ hnc
      have hv : cookieItemKVT item = (pyStrip p.1, PyVal.dict (pyStrip p.2) none) := by
        simp [cookieItemKVT, cookieItemKV, hm, hsp, hmp]
      rw [hv]
      simp [decodedConsistent, hasDecoded, unwrapRaw, hd]
  · have hm : '=' ∉ item := by simpa using h
    have hv : cookieItemKVT item = (pyStrip item, PyVal.dict [] none) := by
      simp [cookieItemKVT, cookieItemKV, hm]
    rw [hv]
    simp [decodedConsistent, hasDecoded, unwrapRaw, pyUnquote_nil]

theorem headerWrite_sound {line : Str} {w : Str × PyVal}
    (h : headerWrite line = some w) :
    w.1 ≠ cookieKey ∧ decodedConsistent w.2 := by
  obtain ⟨wk, wv⟩ := w
  unfold headerWrite at h
  cases hkv : lineKeyVal line with
  | none =>
    rw [hkv] at h
    exact Option.noConfusion h
  | some kv =>
    rw [hkv] at h
    by_cases hc : kv.1 = cookieKey
    · simp [hc] at h
    · simp [hc] at h
      obtain ⟨h1, h2⟩ := h
      exact ⟨h1 ▸ hc, h2 ▸ headerValue_decodedConsistent kv.2⟩

theorem mem_headerWrites_sound {ls : List Str} {w : Str × PyVal}
    (h : w ∈ headerWrites ls) : w.1 ≠ cookieKey ∧ decodedConsistent w.2 := by
  induction ls with
  | nil => simp [headerWrites] at h
  | cons l ls ih =>
    rw [show headerWrites (l :: ls) = headerWritesOfLine l ++ headerWrites ls from rfl] at h
    rcases List.mem_append.mp h with h | h
    · unfold headerWritesOfLine at h
      cases hw : headerWrite l with
      | none =>
        rw [hw] at h
        simp at h
      | some w' =>
        rw [hw] at h
        rcases List.mem_singleton.mp h with rfl
        exact headerWrite_sound hw
    · exact ih h

theorem mem_cookieWritesOfLine_consistent {line : Str} {w : Str × PyVal}
    (h : w ∈ cookieWritesOfLine line) : decodedConsistent w.2 := by
  unfold cookieWritesOfLine at h
  cases hkv : lineKeyVal line with
  | none =>
    rw [hkv] at h
    simp at h
  | some kv =>
    rw [hkv] at h
    by_cases hc : kv.1 = cookieKey
    · simp [hc] at h
      obtain ⟨item, _, hitem⟩ := h
      rw [← hitem]
      exact cookieValue_decodedConsistent item
    · simp [hc] at h

theorem mem_allCookieWrites_consistent {ls : List Str} {w : Str × PyVal}
    (h : w ∈ allCookieWrites ls) : decodedConsistent w.2 := by
  induction ls with
  | nil => simp [allCookieWrites] at h
  | cons l ls ih =>
    rw [show allCookieWrites (l :: ls) = cookieWritesOfLine l ++ allCookieWrites ls from rfl] at h
    rcases List.mem_append.mp h with h | h
    · exact mem_cookieWritesOfLine_consistent h
    · exact ih h

theorem lastWrite_eq_none_of_all_ne {ws : List (Str × PyVal)} {k : Str}
    (h : ∀ w ∈ ws, w.1 ≠ k) : lastWrite ws k = none := by
  induction ws with
  | nil => rfl
  | cons w ws ih =>
    have hws : lastWrite ws k = none := ih (fun w' hw' => h w' (List.mem_cons_of_mem w hw'))
    simp only [lastWrite, hws]
    rw [if_neg (h w (List.mem_cons_self w ws))]

theorem mem_allCookieWrites_of_mem_line {ls : List Str} {line : Str}
    {w : Str × PyVal} (hl : line ∈ ls) (hw : w ∈ cookieWritesOfLine line) :
    w ∈ allCookieWrites ls := by
  induction ls with
  | nil => simp at hl
  | cons l ls ih =>
    rw [show allCookieWrites (l :: ls) = cookieWritesOfLine l ++ allCookieWrites ls from rfl]
    rcases List.mem_cons.mp hl with rfl | hl
    · exact List.mem_append_left _ hw
    · exact List.mem_append_right _ (ih hl)

theorem cookieWritesOfLine_empty_value {line : Str}
    (h : lineKeyVal line = some (cookieKey, [])) :
    cookieWritesOfLine line = [([], PyVal.dict [] none)] := by
  unfold cookieWritesOfLine
  rw [h]
  rfl

/-! ### Bridging lemmas -/

theorem parse_headers_some_eq {s : Str} {r : Parsed}
    (hp : parse_headers s = some r) : r = parse_headersT s := by
  have h := parse_headers_eq s
  rw [hp] at h
  exact Option.some.inj h

theorem mapLookup_insertList_nil (ws : List (Str × PyVal)) (k : Str) :
    mapLookup (insertList [] ws) k = lastWrite ws k := by
  rw [mapLookup_insertList]
  cases hlw : lastWrite ws k <;> rfl

theorem parse_headersT_cons {text l0 : Str} {rest : List Str}
    (hls : linesOf text = l0 :: rest) (hc : l0.contains ':' = true) :
    parse_headersT text = processLinesT rest (processLineT ⟨[], [], []⟩ l0) := by
  have hunf : parse_headersT text = processLinesT (linesOf text)
      { request_line :=
          match linesOf text with
          | [] => ([] : Str)
          | l0 :: _ => if ¬ l0.contains ':' then pyStrip l0 else []
        headers := []
        cookies := [] } := rfl
  rw [hunf, hls]
  simp only [hc]
  rfl

/-! ### The claims -/

/-- C1 counterexample: for the input `cookie: x=1` the value `1` contains no
percent sign and decodes to itself, yet the parser stores the cookie `x` as
the dict `{"raw": "1"}`, not as the plain string `"1"` the claim asserts. -/
theorem cookie_plain_value_cex :
    pyUnquote ("1").data = ("1").data ∧
    (parse_headers exEqCookie).map (fun r => mapLookup r.cookies ("x").data) =
      some (some (PyVal.dict ("1").data none)) ∧
    (parse_headers exEqCookie).map (fun r => mapLookup r.cookies ("x").data) ≠
      some (some (PyVal.str ("1").data)) := by
  decide

/-- C1 (amended): for every cookie item containing `=`, when the trimmed
value contains no `%` or percent-decoding it yields the same string, the
parser stores that cookie's value as a dict with only a raw field equal to
the trimmed raw value (no decoded field) — not as a plain untagged string. -/
theorem cookie_undecoded_stored_as_raw_dict (item name val : Str)
    (m : List (Str × PyVal)) (hin : item.contains '=' = true)
    (hsplit : splitOnFirst '=' item = some (name, val))
    (hdec : (pyStrip val).contains '%' = false ∨
      pyUnquote (pyStrip val) = pyStrip val) :
    processCookieItem m item =
      some (mapInsert m (pyStrip name) (PyVal.dict (pyStrip val) none)) := by
  have hd : pyUnquote (pyStrip val) = pyStrip val := by
    rcases hdec with h | h
    · exact pyUnquote_no_percent _ h
    · exact h
  have hm : '=' ∈ item := by simpa using hin
  simp [processCookieItem, cookieItemKV, hm, hsplit, hd]

/-- C1 witness: the amended statement applied to the item `x=1`. -/
theorem cookie_undecoded_stored_as_raw_dict_witness :
    processCookieItem [] ("x=1").data =
      some (mapInsert [] (pyStrip ("x").data) (PyVal.dict (pyStrip ("1").data) none)) :=
  cookie_undecoded_stored_as_raw_dict ("x=1").data ("x").data ("1").data []
    (by decide) (by decide) (Or.inl (by decide))

/-- C2: every value stored in the headers or cookies dict of a parse result
carries a decoded field if and only if percent-decoding its raw string yields
a different string. -/
theorem decoded_iff_percent_decoding_changes (s : Str) (r : Parsed) (k : Str)
    (v : PyVal) (hp : parse_headers s = some r)
    (hv : mapLookup r.headers k = some v ∨ mapLookup r.cookies k = some v) :
    hasDecoded v = true ↔ ¬ pyUnquote (unwrapRaw v) = unwrapRaw v := by
  have hr : r = parse_headersT s := parse_headers_some_eq hp
  subst hr
  rcases hv with hv | hv
  · rw [parse_headersT_headers, mapLookup_insertList_nil] at hv
    have hmem := lastWrite_mem hv
    exact (mem_headerWrites_sound hmem).2
  · rw [parse_headersT_cookies, mapLookup_insertList_nil] at hv
    have hmem := lastWrite_mem hv
    exact mem_allCookieWrites_consistent hmem

/-- C2 witness: the invariant applied to the decoded header value stored for
the input `a: %7C`. -/
theorem decoded_iff_percent_decoding_changes_witness :
    hasDecoded (PyVal.dict ("%7C").data (some ("|").data)) = true ↔
      ¬ pyUnquote (unwrapRaw (PyVal.dict ("%7C").data (some ("|").data))) =
        unwrapRaw (PyVal.dict ("%7C").data (some ("|").data)) :=
  decoded_iff_percent_decoding_changes exPercentHeader
    ⟨[], [(("a").data, PyVal.dict ("%7C").data (some ("|").data))], []⟩
    ("a").data (PyVal.dict ("%7C").data (some ("|").data))
    (by decide) (Or.inl (by decide))

/-- C3: for every input, `parse_headers` terminates without raising and
returns a result whose headers and cookies components are genuine mappings
(at most one entry per key) and whose request-line component is a string. -/
theorem parse_headers_total (s : Str) :
    ∃ r : Parsed, parse_headers s = some r ∧
      (∀ k, countKey r.headers k ≤ 1) ∧ (∀ k, countKey r.cookies k ≤ 1) := by
  refine ⟨parse_headersT s, parse_headers_eq s, ?_, ?_⟩
  · intro k
    rw [parse_headersT_headers]
    exact countKey_le_one_insertList _ (fun j => by simp [countKey]) k
  · intro k
    rw [parse_headersT_cookies]
    exact countKey_le_one_insertList _ (fun j => by simp [countKey]) k

/-- C4: parsing is deterministic — two parses of the same input agree on the
request line, the headers dict and the cookies dict. -/
theorem parse_headers_deterministic (s : Str) (r₁ r₂ : Parsed)
    (h₁ : parse_headers s = some r₁) (h₂ : parse_headers s = some r₂) :
    r₁.request_line = r₂.request_line ∧ r₁.headers = r₂.headers ∧
      r₁.cookies = r₂.cookies := by
  have h : r₁ = r₂ := Option.some.inj (h₁.symm.trans h₂)
  subst h
  exact ⟨rfl, rfl, rfl⟩

/-- C4 witness: determinism applied to a concrete parse. -/
theorem parse_headers_deterministic_witness :
    (Parsed.mk ("a").data [] []).request_line =
      (Parsed.mk ("a").data [] []).request_line ∧
    (Parsed.mk ("a").data [] []).headers = (Parsed.mk ("a").data [] []).headers ∧
    (Parsed.mk ("a").data [] []).cookies = (Parsed.mk ("a").data [] []).cookies :=
  parse_headers_deterministic exRequestOnly (Parsed.mk ("a").data [] [])
    (Parsed.mk ("a").data [] []) (by decide) (by decide)

/-- C5: when more than one colon-containing line writes the same lowercased
header name, the final headers dict holds exactly one entry for that name,
whose value is the one computed from the last such line; the same last-write-
wins rule holds for duplicate cookie names. -/
theorem duplicate_name_last_write_wins (s : Str) (r : Parsed) (k : Str)
    (hp : parse_headers s = some r) :
    (2 ≤ countKey (headerWrites (linesOf s)) k →
      mapLookup r.headers k = lastWrite (headerWrites (linesOf s)) k ∧
      countKey r.headers k = 1) ∧
    (2 ≤ countKey (allCookieWrites (linesOf s)) k →
      mapLookup r.cookies k = lastWrite (allCookieWrites (linesOf s)) k ∧
      countKey r.cookies k = 1) := by
  have hr : r = parse_headersT s := parse_headers_some_eq hp
  subst hr
  constructor
  · intro hdup
    have hmap : mapLookup (parse_headersT s).headers k =
        lastWrite (headerWrites (linesOf s)) k := by
      rw [parse_headersT_headers, mapLookup_insertList_nil]
    refine ⟨hmap, ?_⟩
    obtain ⟨v, hv⟩ := lastWrite_isSome_of_countKey_pos
      (show 1 ≤ countKey (headerWrites (linesOf s)) k by omega)
    have hsome : mapLookup (parse_headersT s).headers k = some v := by rw [hmap, hv]
    have hge := one_le_countKey_of_mapLookup_some hsome
    have hle : countKey (parse_headersT s).headers k ≤ 1 := by
      rw [parse_headersT_headers]
      exact countKey_le_one_insertList _ (fun j => by simp [countKey]) k
    omega
  · intro hdup
    have hmap : mapLookup (parse_headersT s).cookies k =
        lastWrite (allCookieWrites (linesOf s)) k := by
      rw [parse_headersT_cookies, mapLookup_insertList_nil]
    refine ⟨hmap, ?_⟩
    obtain ⟨v, hv⟩ := lastWrite_isSome_of_countKey_pos
      (show 1 ≤ countKey (allCookieWrites (linesOf s)) k by omega)
    have hsome : mapLookup (parse_headersT s).cookies k = some v := by rw [hmap, hv]
    have hge := one_le_countKey_of_mapLookup_some hsome
    have hle : countKey (parse_headersT s).cookies k ≤ 1 := by
      rw [parse_headersT_cookies]
      exact countKey_le_one_insertList _ (fun j => by simp [countKey]) k
    omega

/-- C5 witness: the duplicated header name `a` and the duplicated cookie name
`x` of `exDupNames`. -/
theorem duplicate_name_last_write_wins_witness :
    (mapLookup parsedDupNames.headers ("a").data =
        lastWrite (headerWrites (linesOf exDupNames)) ("a").data ∧
      countKey parsedDupNames.headers ("a").data = 1) ∧
    (mapLookup parsedDupNames.cookies ("x").data =
        lastWrite (allCookieWrites (linesOf exDupNames)) ("x").data ∧
      countKey parsedDupNames.cookies ("x").data = 1) := by
  have h1 := duplicate_name_last_write_wins exDupNames parsedDupNames ("a").data (by decide)
  have h2 := duplicate_name_last_write_wins exDupNames parsedDupNames ("x").data (by decide)
  exact ⟨h1.1 (by decide), h2.2 (by decide)⟩

/-- C6: after whole-block trimming and line splitting, a colon-free first
line becomes the trimmed request line; a first line containing a colon leaves
the request line empty and is still processed by the header loop (the parse
is the loop run on the first line followed by the remaining lines). -/
theorem request_line_detection (s : Str) (r : Parsed) (l0 : Str)
    (rest : List Str) (hp : parse_headers s = some r)
    (hls : linesOf s = l0 :: rest) :
    (l0.contains ':' = false → r.request_line = pyStrip l0) ∧
    (l0.contains ':' = true → r.request_line = [] ∧
      ∃ st1, processLine ⟨[], [], []⟩ l0 = some st1 ∧
        List.foldlM processLine st1 rest = some r) := by
  have hr : r = parse_headersT s := parse_headers_some_eq hp
  subst hr
  have hrl := parse_headersT_request_line s
  rw [hls] at hrl
  constructor
  · intro hnc
    have hmem : ':' ∉ l0 := by simpa using hnc
    rw [hrl]
    simp [hmem]
  · intro hc
    have hmem : ':' ∈ l0 := by simpa using hc
    refine ⟨by rw [hrl]; simp [hmem], processLineT ⟨[], [], []⟩ l0,
      processLine_eq _ _, ?_⟩
    rw [foldlM_processLine, parse_headersT_cons hls hc]

/-- C6 witness: the input `Host: x`, whose only line contains a colon. -/
theorem request_line_detection_witness :
    parsedColonFirst.request_line = [] ∧
    ∃ st1, processLine ⟨[], [], []⟩ ("Host: x").data = some st1 ∧
      List.foldlM processLine st1 [] = some parsedColonFirst :=
  (request_line_detection exColonFirst parsedColonFirst (("Host: x").data) []
    (by decide) (by decide)).2 (by decide)

/-- C7: for the input `cookie: x=1;`, the cookies dict holds the entry `x`
with raw value `1` and an additional flag cookie with the empty name and the
empty raw value. -/
theorem trailing_semicolon_flag_cookie :
    (parse_headers exTrailingSemi).map (fun r => mapLookup r.cookies ("x").data) =
      some (some (PyVal.dict ("1").data none)) ∧
    (parse_headers exTrailingSemi).map (fun r => mapLookup r.cookies []) =
      some (some (PyVal.dict [] none)) := by
  decide

/-- C8: when the parsed headers hold no `host` entry, or its entry unwraps to
the empty string, `send_request` fails with the missing-host error and the
injected transport is never invoked (recorded by the boolean flag). -/
theorem send_request_missing_host (s : Str) (r : Parsed) (scheme : Str)
    (transport : Request → Nat) (hp : parse_headers s = some r)
    (hh : mapLookup r.headers ("host").data = none ∨
      ∃ v, mapLookup r.headers ("host").data = some v ∧ unwrapRaw v = []) :
    send_request transport r scheme = (Except.error SendError.missingHost, false) := by
  have hhost : getHost r = [] := by
    unfold getHost
    rcases hh with h | ⟨v, hv, hu⟩
    · rw [h]
    · rw [hv]
      exact hu
  simp [send_request, buildRequest, hhost]

/-- C8 witness: the input `GET /`, which has no `host` header. -/
theorem send_request_missing_host_witness :
    send_request (fun _ => 200) parsedGetOnly ("https").data =
      (Except.error SendError.missingHost, false) :=
  send_request_missing_host exGetOnly parsedGetOnly ("https").data
    (fun _ => 200) (by decide) (Or.inl (by decide))

/-- C9: the headers dict of a parse never contains the key `cookie`; a colon
line whose lowercased trimmed key is `cookie` leaves the headers dict
unchanged and routes its value entirely into the cookies dict. -/
theorem cookie_header_routed_to_cookies (s : Str) (r : Parsed)
    (hp : parse_headers s = some r) :
    mapLookup r.headers cookieKey = none ∧
    (∀ (st : Parsed) (line : Str) (kv : Str × Str),
      lineKeyVal line = some kv → kv.1 = cookieKey →
      (processLineT st line).headers = st.headers ∧
      (processLineT st line).cookies = processCookiesT st.cookies kv.2) := by
  constructor
  · have hr : r = parse_headersT s := parse_headers_some_eq hp
    subst hr
    rw [parse_headersT_headers, mapLookup_insertList_nil]
    exact lastWrite_eq_none_of_all_ne (fun w hw => (mem_headerWrites_sound hw).1)
  · intro st line kv hkv hc
    unfold processLineT
    rw [hkv]
    simp [hc]

/-- C9 witness: the input `cookie: a=1` and its own cookie line. -/
theorem cookie_header_routed_to_cookies_witness :
    mapLookup parsedCookieLine.headers cookieKey = none ∧
    ((processLineT ⟨[], [], []⟩ exCookieLine).headers = [] ∧
      (processLineT ⟨[], [], []⟩ exCookieLine).cookies =
        processCookiesT [] ("a=1").data) := by
  have h := cookie_header_routed_to_cookies exCookieLine parsedCookieLine (by decide)
  exact ⟨h.1, h.2 ⟨[], [], []⟩ exCookieLine (cookieKey, ("a=1").data) (by decide) rfl⟩

/-- C10 counterexample: the input `cookie: ` followed by `cookie: =x` has a
cookie line whose value trims to the empty string, yet the final entry at the
empty name has raw value `x`, not the empty raw value the claim asserts. -/
theorem empty_cookie_flag_cex :
    (∃ l ∈ linesOf exOverwrittenFlag, lineKeyVal l = some (cookieKey, [])) ∧
    (parse_headers exOverwrittenFlag).map (fun r => mapLookup r.cookies []) =
      some (some (PyVal.dict ("x").data none)) ∧
    (parse_headers exOverwrittenFlag).map (fun r => mapLookup r.cookies []) ≠
      some (some (PyVal.dict [] none)) := by
  decide

/-- C10 (amended): an input containing a cookie header line whose value trims
to the empty string yields a non-empty cookies dict containing an entry for
the empty cookie name; that entry is the flag cookie with empty raw value
provided no other cookie item of the input writes the empty name with a
different value (a later `=x` item, for instance, overwrites it). -/
theorem empty_cookie_value_flag_entry (s : Str) (r : Parsed)
    (hp : parse_headers s = some r)
    (hline : ∃ l ∈ linesOf s, lineKeyVal l = some (cookieKey, [])) :
    r.cookies ≠ [] ∧ (∃ v, mapLookup r.cookies [] = some v) ∧
    ((∀ w ∈ allCookieWrites (linesOf s), w.1 = ([] : Str) →
        w.2 = PyVal.dict [] none) →
      mapLookup r.cookies [] = some (PyVal.dict [] none)) := by
  have hr : r = parse_headersT s := parse_headers_some_eq hp
  subst hr
  obtain ⟨l, hl, hkv⟩ := hline
  have hwl : (([] : Str), PyVal.dict [] none) ∈ cookieWritesOfLine l := by
    rw [cookieWritesOfLine_empty_value hkv]
    exact List.mem_singleton.mpr rfl
  have hmem : (([] : Str), PyVal.dict [] none) ∈ allCookieWrites (linesOf s) :=
    mem_allCookieWrites_of_mem_line hl hwl
  have hcnt : 1 ≤ countKey (allCookieWrites (linesOf s)) [] :=
    one_le_countKey_of_mem hmem
  obtain ⟨v, hv⟩ := lastWrite_isSome_of_countKey_pos hcnt
  have hlook : mapLookup (parse_headersT s).cookies [] = some v := by
    rw [parse_headersT_cookies, mapLookup_insertList_nil, hv]
  refine ⟨?_, ⟨v, hlook⟩, ?_⟩
  · intro hnil
    rw [hnil] at hlook
    simp [mapLookup] at hlook
  · intro hall
    have hkey := lastWrite_mem hv
    have hvflag : v = PyVal.dict [] none := hall ([], v) hkey rfl
    rw [hlook, hvflag]

/-- C10 witness: the input `cookie: ` alone, where the flag entry survives. -/
theorem empty_cookie_value_flag_entry_witness :
    parsedEmptyCookie.cookies ≠ [] ∧
    (∃ v, mapLookup parsedEmptyCookie.cookies [] = some v) ∧
    mapLookup parsedEmptyCookie.cookies [] = some (PyVal.dict [] none) := by
  have h := empty_cookie_value_flag_entry exEmptyCookie parsedEmptyCookie
    (by decide) (by decide)
  exact ⟨h.1, h.2.1, h.2.2 (by decide)⟩
